import Mathlib

/-!
# Progress report: staged edits and rendering

A shallow embedding of `progress/main.go`.  A report (`Progress`) carries identity fields
(token, repository, issue, key) and staged fields (title, summary, tasks).  Every staging
method has a value receiver and returns the updated report together with a Go `error`.

Conventions of the embedding:

* Go strings are modelled by `String`, that is by sequences of Unicode code points (valid
  UTF-8).  On such strings the byte-level operations `==`, `+` and `strings.HasSuffix s "\n"`
  coincide with their code-point-level counterparts.
* A Go `error` is modelled by `Option String`: `none` is `nil`, `some msg` is an error whose
  `Error()` text is `msg`.
* A method returning `(Progress, error)` returns a pair.
* The `ctx context.Context` argument is unused by every staging method and is dropped.
* A slice is modelled by the list of its elements; the report returned by a method is the value
  it denotes at the moment the method returns.  The section on Go memory embeds the slice
  header and its backing array explicitly, to follow the reports that share an array.
-/

set_option autoImplicit false

namespace progress

/-! ## Data model -/

/-- Modelled from the spec: the credential type `dagger.Secret` is generated code that is not part
of the source file; the report only stores and forwards it, so it is a bare handle. -/
structure Secret where
  handle : Nat
deriving DecidableEq

/-- Go `type Task struct`. -/
structure Task where
  Key : String
  Description : String
  Status : String
deriving DecidableEq

/-- Go `type Progress struct`.  `Token` is a pointer, `none` being the nil pointer. -/
structure Progress where
  Token : Option Secret
  Repo : String
  Issue : Int
  Key : String
  Title : String
  Summary : String
  Tasks : List Task
deriving DecidableEq

/-- Go `error`. -/
abbrev error := Option String

/-- Go `func New(key, token, repo, issue) Progress`: the fields not listed in the composite
literal take their zero value. -/
def New (key : String) (token : Option Secret) (repo : String) (issue : Int) : Progress :=
  { Token := token, Repo := repo, Issue := issue, Key := key,
    Title := "", Summary := "", Tasks := [] }

/-! ## Task staging -/

/-- Go `func (r Progress) StartTask(ctx, key, description, status) (Progress, error)`. -/
def Progress.StartTask (r : Progress) (key description status : String) : Progress × error :=
  ({ r with Tasks := r.Tasks ++ [{ Key := key, Description := description, Status := status }] },
   none)

/-- The body of the loop `for i := range r.Tasks` of `UpdateTask`, run over the indices that are
still to be visited; falling out of the loop reaches the final `return r, fmt.Errorf(...)`. -/
def Progress.UpdateTask.scan (r : Progress) (key status : String) : List Nat → Progress × error
  | [] => (r, some ("no task at key " ++ key))
  | i :: rest =>
    match r.Tasks[i]? with
    | some t =>
      if t.Key = key then
        ({ r with Tasks := r.Tasks.set i { t with Status := status } }, none)
      else Progress.UpdateTask.scan r key status rest
    | none => Progress.UpdateTask.scan r key status rest

/-- Go `func (r Progress) UpdateTask(ctx, key, status) (Progress, error)`. -/
def Progress.UpdateTask (r : Progress) (key status : String) : Progress × error :=
  Progress.UpdateTask.scan r key status (List.range r.Tasks.length)

/-! ## Go standard library: `unicode`, `strings`

The library functions the source calls are modelled from their documented behaviour.  Runes are
`Int`s (Go `int32`); the characters of a `String` are valid code points. -/

namespace unicode

def MaxRune : Int := 0x10FFFF

def ReplacementChar : Int := 0xFFFD

def MaxASCII : Int := 0x7F

def UpperCase : Int := 0

def LowerCase : Int := 1

def TitleCase : Int := 2

def MaxCase : Int := 3

/-- Conversion to Go `int32` (type `rune`), wrapping around. -/
def rune (x : Int) : Int := (x + 2 ^ 31) % 2 ^ 32 - 2 ^ 31

/-- Go `type d [MaxCase]rune`: the deltas to reach upper, lower and title case. -/
structure d where
  upper : Int
  lower : Int
  title : Int
deriving DecidableEq

/-- Indexing `cr.Delta[_case]` for `0 ≤ _case < MaxCase`. -/
def d.get (delta : d) (_case : Int) : Int :=
  if _case = UpperCase then delta.upper
  else if _case = LowerCase then delta.lower
  else delta.title

/-- Go `type CaseRange struct`: code points `Lo..Hi` inclusive share the deltas `Delta`. -/
structure CaseRange where
  Lo : Nat
  Hi : Nat
  Delta : d
deriving DecidableEq

/-- The binary search of Go `unicode.to` over `caseRange[lo:hi]`; each iteration strictly
shrinks the interval, `fuel` bounds the number of iterations. -/
def toCase.search (_case r : Int) (caseRange : List CaseRange) : Nat → Nat → Nat → Int × Bool
  | 0, _, _ => (r, false)
  | fuel + 1, lo, hi =>
    if lo < hi then
      let m := (lo + hi) / 2
      match caseRange[m]? with
      | none => (r, false)
      | some cr =>
        if rune cr.Lo ≤ r ∧ r ≤ rune cr.Hi then
          let delta := cr.Delta.get _case
          if delta > MaxRune then
            (rune (rune cr.Lo + ((r - rune cr.Lo) - (r - rune cr.Lo) % 2 + _case % 2)), true)
          else (rune (r + delta), true)
        else if r < rune cr.Lo then toCase.search _case r caseRange fuel lo m
        else toCase.search _case r caseRange fuel (m + 1) hi
    else (r, false)

/-- Go `func to(_case int, r rune, caseRange []CaseRange) (mappedRune rune, foundMapping bool)`
(`to` is reserved in Lean). -/
def toCase (_case r : Int) (caseRange : List CaseRange) : Int × Bool :=
  if _case < 0 ∨ MaxCase ≤ _case then (ReplacementChar, false)
  else toCase.search _case r caseRange caseRange.length 0 caseRange.length

/-- Go `func To(_case int, r rune) rune`, the package table `CaseRanges` being a parameter. -/
def To (CaseRanges : List CaseRange) (_case r : Int) : Int :=
  (toCase _case r CaseRanges).1

/-- Go `func ToTitle(r rune) rune`: title case is upper case for ASCII. -/
def ToTitle (CaseRanges : List CaseRange) (r : Int) : Int :=
  if r ≤ MaxASCII then
    if 97 ≤ r ∧ r ≤ 122 then r - (97 - 65) else r
  else To CaseRanges TitleCase r

/-- Go `func ToUpper(r rune) rune`. -/
def ToUpper (CaseRanges : List CaseRange) (r : Int) : Int :=
  if r ≤ MaxASCII then
    if 97 ≤ r ∧ r ≤ 122 then r - (97 - 65) else r
  else To CaseRanges UpperCase r

/-- Go `func IsSpace(r rune) bool`: the code points with the Unicode property White_Space; in
Latin-1 these are tab, newline, vertical tab, form feed, carriage return, space, U+0085 and
U+00A0. -/
def IsSpace (c : Char) : Bool :=
  let r := c.toNat
  if r ≤ 0xFF then
    r = 0x09 ∨ r = 0x0A ∨ r = 0x0B ∨ r = 0x0C ∨ r = 0x0D ∨ r = 0x20 ∨ r = 0x85 ∨ r = 0xA0
  else
    r = 0x1680 ∨ (0x2000 ≤ r ∧ r ≤ 0x200A) ∨ r = 0x2028 ∨ r = 0x2029 ∨ r = 0x202F ∨
      r = 0x205F ∨ r = 0x3000

/-- The entries of the Go table `unicode.CaseRanges` for the Latin digraph letters
U+01C4..U+01CC (DZ with caron, LJ and NJ, each in its upper-case, title-case and lower-case
form), whose title case differs from their upper case. -/
def digraphCaseRanges : List CaseRange :=
  [ ⟨0x01C4, 0x01C4, ⟨0, 2, 1⟩⟩, ⟨0x01C5, 0x01C5, ⟨-1, 1, 0⟩⟩, ⟨0x01C6, 0x01C6, ⟨-2, 0, -1⟩⟩,
    ⟨0x01C7, 0x01C7, ⟨0, 2, 1⟩⟩, ⟨0x01C8, 0x01C8, ⟨-1, 1, 0⟩⟩, ⟨0x01C9, 0x01C9, ⟨-2, 0, -1⟩⟩,
    ⟨0x01CA, 0x01CA, ⟨0, 2, 1⟩⟩, ⟨0x01CB, 0x01CB, ⟨-1, 1, 0⟩⟩, ⟨0x01CC, 0x01CC, ⟨-2, 0, -1⟩⟩ ]

end unicode

namespace strings

/-- The character written by Go `WriteRune(r)` for `r ≥ 0`: invalid code points are written as
U+FFFD. -/
def runeToChar (r : Int) : Char :=
  if r.toNat.isValidChar then Char.ofNat r.toNat else Char.ofNat 0xFFFD

/-- Go `func Map(mapping func(rune) rune, s string) string`: every code point is replaced by
its image, code points with a negative image are dropped. -/
def Map (mapping : Int → Int) (s : String) : String :=
  ⟨s.data.filterMap (fun c =>
    let r := mapping (c.toNat : Int)
    if 0 ≤ r then some (runeToChar r) else none)⟩

/-- Go `func ToTitle(s string) string`. -/
def ToTitle (CaseRanges : List unicode.CaseRange) (s : String) : String :=
  Map (unicode.ToTitle CaseRanges) s

/-- Go `func ToUpper(s string) string`: the upper-case mapping of `s` (the library's ASCII fast
path computes the same string). -/
def ToUpper (CaseRanges : List unicode.CaseRange) (s : String) : String :=
  Map (unicode.ToUpper CaseRanges) s

/-- Go `func HasSuffix(s, suffix string) bool`. -/
def HasSuffix (s suffix : String) : Bool :=
  s.data.length ≥ suffix.data.length ∧
    s.data.drop (s.data.length - suffix.data.length) = suffix.data

/-- Go `func TrimSpace(s string) string`: `s` without its leading and trailing white space. -/
def TrimSpace (s : String) : String :=
  ⟨((s.data.dropWhile unicode.IsSpace).reverse.dropWhile unicode.IsSpace).reverse⟩

end strings

/-! ## Title and summary staging -/

/-- Go `func (r Progress) WriteSummary(ctx, summary) (Progress, error)`. -/
def Progress.WriteSummary (r : Progress) (summary : String) : Progress × error :=
  ({ r with Summary := summary }, none)

/-- Go `func (r Progress) AppendSummary(ctx, summary) (Progress, error)`. -/
def Progress.AppendSummary (r : Progress) (summary : String) : Progress × error :=
  if r.Summary = "" then
    ({ r with Summary := summary }, none)
  else
    let sep := if strings.HasSuffix r.Summary "\n" then "" else "\n"
    ({ r with Summary := strings.TrimSpace r.Summary ++ sep ++ summary }, none)

/-- Go `func (r Progress) WriteTitle(ctx, title) (Progress, error)`. -/
def Progress.WriteTitle (CaseRanges : List unicode.CaseRange) (r : Progress) (title : String) :
    Progress × error :=
  ({ r with Title := strings.ToTitle CaseRanges title }, none)

/-! ## Rendering and publishing -/

/-- The string `contents` built by `Publish`; `now` is the text produced by
`time.Now().Local().Format("2006-01-02 15:04:05 MST")`. -/
def Progress.Publish.contents (r : Progress) (now : String) : String :=
  let contents := ""
  let contents := if r.Title ≠ "" then "## " ++ r.Title ++ "\n\n" else contents
  let contents := if r.Summary ≠ "" then contents ++ (r.Summary ++ "\n\n") else contents
  let contents :=
    if r.Tasks.length > 0 then
      let contents := contents ++ "### Tasks\n\n"
      let contents := contents ++ "<table>\n<tr><th>Description</th><th>Status</th></tr>\n"
      let contents := r.Tasks.foldl (fun contents task =>
        contents ++ ("<tr><td>" ++ task.Description ++ "</td><td>" ++ task.Status ++
          "</td></tr>\n")) contents
      contents ++ "</table>\n"
    else contents
  contents ++ ("\n<sub>*Last update: " ++ now ++ "*<sub>\n")

/-- The arguments of one call to the comment sink:
`dag.GithubComment(r.Token, r.Repo, {Issue: r.Issue, MessageID: r.Key}).Create(ctx, contents)`. -/
structure CommentCall where
  Token : Option Secret
  Repo : String
  Issue : Int
  MessageID : String
  contents : String
deriving DecidableEq

/-- Go `func (r Progress) Publish(ctx) error`.  The comment sink `Create` is a collaborator acting
on an external state `σ`; `now` is the formatted local time. -/
def Progress.Publish {σ : Type} (Create : CommentCall → σ → error × σ) (now : String)
    (r : Progress) (world : σ) : error × σ :=
  let contents := Progress.Publish.contents r now
  Create { Token := r.Token, Repo := r.Repo, Issue := r.Issue, MessageID := r.Key,
           contents := contents } world

/-! ## Notions used to state the properties -/

/-- One data row of the rendered table, without its line terminator. -/
def dataRow (t : Task) : String :=
  "<tr><td>" ++ t.Description ++ "</td><td>" ++ t.Status ++ "</td></tr>"

/-- The text made of the given lines, each followed by a newline. -/
def unlines : List String → String
  | [] => ""
  | l :: ls => l ++ "\n" ++ unlines ls

/-- The heading of the task section and the opening of the two-column table. -/
def tableHead : String :=
  "### Tasks\n\n" ++ "<table>\n<tr><th>Description</th><th>Status</th></tr>\n"

/-- The footnote that ends every rendered body. -/
def footnote (now : String) : String := "\n<sub>*Last update: " ++ now ++ "*<sub>\n"

/-- Positions `i` and `i + 1` of `s` both hold a newline: a blank line starts at `i`. -/
abbrev blankLineAt (s : String) (i : Nat) : Prop :=
  s.data[i]? = some '\n' ∧ s.data[i + 1]? = some '\n'

/-! ## Concrete reports -/

/-- A report holding two tasks that share the key `a`. -/
def twoA : Progress :=
  { Token := none, Repo := "o/p", Issue := 7, Key := "r", Title := "", Summary := "",
    Tasks := [⟨"a", "A", "pending"⟩, ⟨"a", "A2", "pending"⟩] }

/-- A report with nothing staged. -/
def bare : Progress := New "r" none "o/p" 7

/-- A report whose summary is the single line `a`. -/
def oneLine : Progress :=
  { Token := none, Repo := "o/p", Issue := 7, Key := "r", Title := "", Summary := "a",
    Tasks := [] }

/-- A report with a title, a summary and two tasks. -/
def renderedA : Progress :=
  { Token := none, Repo := "o/p", Issue := 7, Key := "r", Title := "T", Summary := "S",
    Tasks := [⟨"a", "A", "done"⟩, ⟨"a", "A2", "pending"⟩] }

/-- A report with the title, summary, descriptions and statuses of `renderedA` and a different
token, repository, issue, key and task keys. -/
def renderedB : Progress :=
  { Token := some ⟨1⟩, Repo := "x/y", Issue := 8, Key := "other", Title := "T", Summary := "S",
    Tasks := [⟨"k1", "A", "done"⟩, ⟨"k2", "A2", "pending"⟩] }

/-! ## Sequences of staging calls -/

/-- One staging call together with its arguments. -/
inductive Staging where
  | WriteTitle (title : String)
  | WriteSummary (summary : String)
  | AppendSummary (summary : String)
  | StartTask (key description status : String)
  | UpdateTask (key status : String)
deriving DecidableEq

/-- The staging call `op` made on the report `r`. -/
def Staging.call (CaseRanges : List unicode.CaseRange) (op : Staging) (r : Progress) :
    Progress × error :=
  match op with
  | .WriteTitle title => Progress.WriteTitle CaseRanges r title
  | .WriteSummary summary => r.WriteSummary summary
  | .AppendSummary summary => r.AppendSummary summary
  | .StartTask key description status => r.StartTask key description status
  | .UpdateTask key status => r.UpdateTask key status

/-- The report obtained from `r` by the staging calls `ops`, made in order, each one on the
report returned by the previous call. -/
def Staging.run (CaseRanges : List unicode.CaseRange) : List Staging → Progress → Progress
  | [], r => r
  | op :: ops, r => Staging.run CaseRanges ops (op.call CaseRanges r).1

/-- Every `StartTask` of the sequence `ops`, run from `r`, is given a key that no task of the
report it is called on has yet. -/
def Staging.freshKeys (CaseRanges : List unicode.CaseRange) : List Staging → Progress → Bool
  | [], _ => true
  | op :: ops, r =>
    (match op with
      | .StartTask key _ _ => r.Tasks.all (fun t => decide (t.Key ≠ key))
      | _ => true) &&
    Staging.freshKeys CaseRanges ops (op.call CaseRanges r).1

/-- The errors returned by the staging calls `ops`, made in order from `r`. -/
def Staging.errors (CaseRanges : List unicode.CaseRange) : List Staging → Progress → List error
  | [], _ => []
  | op :: ops, r =>
    (op.call CaseRanges r).2 :: Staging.errors CaseRanges ops (op.call CaseRanges r).1

/-- The identity fields of a report: key, credential, repository, issue. -/
def identity (r : Progress) : String × Option Secret × String × Int :=
  (r.Key, r.Token, r.Repo, r.Issue)

/-- The staging calls of the release round trip. -/
def releaseOps : List Staging :=
  [.WriteTitle "release v2", .WriteSummary "rolling out",
   .StartTask "build" "Build image" "pending", .UpdateTask "build" "done"]

/-- The body expected from the release round trip, up to the footnote. -/
def releaseBody : String :=
  "## RELEASE V2\n\n" ++ "rolling out\n\n" ++ tableHead ++
    unlines ["<tr><td>Build image</td><td>done</td></tr>"] ++ "</table>\n"

/-- No two tasks of the report have the same key. -/
abbrev keysUnique (r : Progress) : Prop := (r.Tasks.map Task.Key).Nodup

/-! ## Recording comment sink -/

/-- The comment sink `Create` with a record, kept in front of its state, of the calls it has
received, oldest first. -/
def recording {σ : Type} (Create : CommentCall → σ → error × σ) :
    CommentCall → List CommentCall × σ → error × (List CommentCall × σ) :=
  fun call world => ((Create call world.2).1, (world.1 ++ [call], (Create call world.2).2))

/-- A comment sink without state that rejects every call. -/
def failingSink : CommentCall → Unit → error × Unit :=
  fun _ _ => (some "401 Bad credentials", ())

/-! ## Go memory: slices sharing a backing array

In Go the field `Tasks` is a slice header (array, length, capacity).  A method with a value
receiver copies the header, not the backing array, so the receiver and the report of the caller
address the same array.  This section embeds `New`, `StartTask` and `UpdateTask` over an explicit
memory, to observe what a call does to the reports the caller already holds. -/

namespace mem

/-- Go memory: the backing arrays allocated so far, addressed by their index. -/
abbrev Memory := List (List Task)

/-- A Go slice header of type `[]Task`; the nil slice has no array and length and capacity 0. -/
structure Slice where
  array : Option Nat
  len : Nat
  cap : Nat
deriving DecidableEq

/-- Go `type Progress struct` as a value held by a caller: `Tasks` is a slice header. -/
structure Progress where
  Token : Option Secret
  Repo : String
  Issue : Int
  Key : String
  Title : String
  Summary : String
  Tasks : Slice
deriving DecidableEq

/-- The elements `s[0], ..., s[len(s)-1]` of the slice `s` in the memory `m`. -/
def read (m : Memory) (s : Slice) : List Task :=
  match s.array with
  | none => []
  | some a => (m.getD a []).take s.len

/-- The memory after the assignment `s[i] = t`. -/
def write (m : Memory) (s : Slice) (i : Nat) (t : Task) : Memory :=
  match s.array with
  | none => m
  | some a => m.set a ((m.getD a []).set i t)

/-- The report, as a value, that the caller holding `r` observes in the memory `m`. -/
def view (m : Memory) (r : Progress) : progress.Progress :=
  { Token := r.Token, Repo := r.Repo, Issue := r.Issue, Key := r.Key, Title := r.Title,
    Summary := r.Summary, Tasks := read m r.Tasks }

/-- The zero value of `Task`, which fills the unused capacity of a fresh array. -/
def zeroTask : Task := { Key := "", Description := "", Status := "" }

/-- The capacity the Go runtime chooses when a slice of capacity `oldCap` must grow to hold
`newLen` elements (`runtime.growslice`): the needed length if it exceeds twice the old capacity,
else twice the old capacity below 256 elements, else a growth by a quarter plus 192 (one such
step suffices when a single element is appended).  The rounding up to an allocation size class
is left out; it does not change the capacities 1, 2 and 4 of arrays of `Task`. -/
def growslice (oldCap newLen : Nat) : Nat :=
  if newLen > oldCap + oldCap then newLen
  else if oldCap < 256 then oldCap + oldCap
  else max newLen (oldCap + (oldCap + 3 * 256) / 4)

/-- Go `append(s, x)`: when the capacity suffices the element is written into the backing array
of `s`, which is reused; otherwise a new array of capacity `grow s.cap (s.len + 1)` is
allocated, holding the elements of `s` followed by `x`. -/
def append (grow : Nat → Nat → Nat) (m : Memory) (s : Slice) (x : Task) : Slice × Memory :=
  if s.len + 1 ≤ s.cap then
    ({ array := s.array, len := s.len + 1, cap := s.cap }, write m s s.len x)
  else
    let newcap := grow s.cap (s.len + 1)
    ({ array := some m.length, len := s.len + 1, cap := newcap },
      m ++ [read m s ++ [x] ++ List.replicate (newcap - (s.len + 1)) zeroTask])

/-- Go `func New(key, token, repo, issue) Progress`: `Tasks` is the nil slice. -/
def New (key : String) (token : Option Secret) (repo : String) (issue : Int) : Progress :=
  { Token := token, Repo := repo, Issue := issue, Key := key, Title := "", Summary := "",
    Tasks := { array := none, len := 0, cap := 0 } }

/-- Go `func (r Progress) StartTask(ctx, key, description, status) (Progress, error)` over the
memory `m`. -/
def Progress.StartTask (grow : Nat → Nat → Nat) (r : Progress) (key description status : String)
    (m : Memory) : (Progress × error) × Memory :=
  let res := append grow m r.Tasks { Key := key, Description := description, Status := status }
  (({ r with Tasks := res.1 }, none), res.2)

/-- The loop `for i := range r.Tasks` of `UpdateTask` over the memory `m`: the assignment
`r.Tasks[i].Status = status` is a write into the backing array. -/
def Progress.UpdateTask.scan (r : Progress) (key status : String) (m : Memory) :
    List Nat → (Progress × error) × Memory
  | [] => ((r, some ("no task at key " ++ key)), m)
  | i :: rest =>
    match (read m r.Tasks)[i]? with
    | some t =>
      if t.Key = key then ((r, none), write m r.Tasks i { t with Status := status })
      else Progress.UpdateTask.scan r key status m rest
    | none => Progress.UpdateTask.scan r key status m rest

/-- Go `func (r Progress) UpdateTask(ctx, key, status) (Progress, error)` over the memory `m`. -/
def Progress.UpdateTask (r : Progress) (key status : String) (m : Memory) :
    (Progress × error) × Memory :=
  Progress.UpdateTask.scan r key status m (List.range r.Tasks.len)

/-- The slice header is consistent with the memory: a nil slice is empty, any other slice
addresses an allocated array whose size is the capacity, and the length is within capacity. -/
def Slice.valid (m : Memory) (s : Slice) : Prop :=
  match s.array with
  | none => s.len = 0 ∧ s.cap = 0
  | some a => s.len ≤ s.cap ∧ ∃ arr, m[a]? = some arr ∧ arr.length = s.cap

/-- The report and the memory of a caller after `New` and one `StartTask`. -/
def held : (Progress × error) × Memory :=
  (New "r" none "o/p" 7).StartTask growslice "a" "A" "pending" []

/-- The result of `UpdateTask` called on the report of `held`. -/
def updated : (Progress × error) × Memory :=
  held.1.1.UpdateTask "a" "done" held.2

/-- The report and the memory of a caller after `New` and three `StartTask` calls; the backing
array has capacity 4 and holds 3 tasks. -/
def three : (Progress × error) × Memory :=
  ((held.1.1.StartTask growslice "b" "B" "pending" held.2).1.1.StartTask growslice
    "c" "C" "pending" (held.1.1.StartTask growslice "b" "B" "pending" held.2).2)

/-- A first report derived from the report of `three` by `StartTask`. -/
def firstChild : (Progress × error) × Memory :=
  three.1.1.StartTask growslice "d1" "D1" "pending" three.2

/-- A second report derived from the report of `three` by `StartTask`, after the first. -/
def secondChild : (Progress × error) × Memory :=
  three.1.1.StartTask growslice "d2" "D2" "pending" firstChild.2

end mem

/-! ## Lemmas on the update loop -/

theorem UpdateTask.scan_absent (r : Progress) (key status : String) (n i : Nat)
    (h : ∀ j t, i ≤ j → j < i + n → r.Tasks[j]? = some t → t.Key ≠ key) :
    Progress.UpdateTask.scan r key status (List.range' i n) =
      (r, some ("no task at key " ++ key)) := by
  induction n generalizing i with
  | zero => simp [Progress.UpdateTask.scan]
  | succ n ih =>
    have hrec := ih (i + 1) (fun j t h1 h2 h3 => h j t (by omega) (by omega) h3)
    rw [List.range'_succ, Progress.UpdateTask.scan]
    cases hi : r.Tasks[i]? with
    | none => simpa using hrec
    | some t =>
      have hk : t.Key ≠ key := h i t (Nat.le_refl i) (by omega) hi
      simpa [hk] using hrec

theorem UpdateTask.scan_first (r : Progress) (key status : String) (n i m : Nat) (t : Task)
    (him : i ≤ m) (hmn : m < i + n) (hm : r.Tasks[m]? = some t) (hk : t.Key = key)
    (h : ∀ j u, i ≤ j → j < m → r.Tasks[j]? = some u → u.Key ≠ key) :
    Progress.UpdateTask.scan r key status (List.range' i n) =
      ({ r with Tasks := r.Tasks.set m { t with Status := status } }, none) := by
  induction n generalizing i with
  | zero => omega
  | succ n ih =>
    rw [List.range'_succ, Progress.UpdateTask.scan]
    by_cases hEq : i = m
    · subst hEq
      simp [hm, hk]
    · have hlt : i < m := by omega
      have hrec := ih (i + 1) (by omega) (by omega)
        (fun j u h1 h2 h3 => h j u (by omega) h2 h3)
      cases hi : r.Tasks[i]? with
      | none => simpa using hrec
      | some u =>
        have hu : u.Key ≠ key := h i u (Nat.le_refl i) hlt hi
        simpa [hu] using hrec

theorem exists_first_key (k : String) (l : List Task) (h : ∃ t ∈ l, t.Key = k) :
    ∃ (m : Nat) (t : Task), l[m]? = some t ∧ t.Key = k ∧
      ∀ (j : Nat) (u : Task), j < m → l[j]? = some u → u.Key ≠ k := by
  induction l with
  | nil => obtain ⟨t, ht, _⟩ := h; cases ht
  | cons a l ih =>
    by_cases ha : a.Key = k
    · exact ⟨0, a, by simp, ha, fun j u hj => absurd hj (Nat.not_lt_zero j)⟩
    · obtain ⟨t, ht, htk⟩ := h
      have hmem : t ∈ l := by
        rcases List.mem_cons.mp ht with h1 | h1
        · subst h1; exact absurd htk ha
        · exact h1
      obtain ⟨m, t', h1, h2, h3⟩ := ih ⟨t, hmem, htk⟩
      refine ⟨m + 1, t', by simpa using h1, h2, ?_⟩
      intro j u hj hju
      cases j with
      | zero =>
        simp at hju
        subst hju
        exact ha
      | succ j =>
        exact h3 j u (by omega) (by simpa using hju)

theorem UpdateTask_eq_of_first (r : Progress) (k s : String) (m : Nat) (t : Task)
    (hm : r.Tasks[m]? = some t) (hk : t.Key = k)
    (h : ∀ (j : Nat) (u : Task), j < m → r.Tasks[j]? = some u → u.Key ≠ k) :
    r.UpdateTask k s = ({ r with Tasks := r.Tasks.set m { t with Status := s } }, none) := by
  have hlt : m < r.Tasks.length := (List.getElem?_eq_some_iff.mp hm).1
  unfold Progress.UpdateTask
  rw [List.range_eq_range']
  exact UpdateTask.scan_first r k s r.Tasks.length 0 m t (Nat.zero_le m) (by omega) hm hk
    (fun j u _ h2 h3 => h j u h2 h3)

theorem UpdateTask_eq_of_absent (r : Progress) (k s : String)
    (h : ∀ t ∈ r.Tasks, t.Key ≠ k) :
    r.UpdateTask k s = (r, some ("no task at key " ++ k)) := by
  unfold Progress.UpdateTask
  rw [List.range_eq_range']
  apply UpdateTask.scan_absent
  intro j t _ _ hj
  exact h t (List.getElem?_mem hj)

theorem UpdateTask_ok_of_present (r : Progress) (k s : String)
    (h : ∃ t ∈ r.Tasks, t.Key = k) : (r.UpdateTask k s).2 = none := by
  obtain ⟨m, t, hm, hk, hfirst⟩ := exists_first_key k r.Tasks h
  rw [UpdateTask_eq_of_first r k s m t hm hk hfirst]

/-! ## Lemmas on the library functions -/

/-- The binary search never runs out of fuel: any two amounts of fuel that cover the interval
give the same answer. -/
theorem toCase.search_fuel (_case r : Int) (caseRange : List unicode.CaseRange)
    (fuel fuel' lo hi : Nat) (h : hi - lo ≤ fuel) (h' : hi - lo ≤ fuel') :
    unicode.toCase.search _case r caseRange fuel lo hi =
      unicode.toCase.search _case r caseRange fuel' lo hi := by
  induction fuel generalizing fuel' lo hi with
  | zero =>
    cases fuel' with
    | zero => rfl
    | succ n =>
      have : ¬ lo < hi := by omega
      simp [unicode.toCase.search, this]
  | succ n ih =>
    cases fuel' with
    | zero =>
      have : ¬ lo < hi := by omega
      simp [unicode.toCase.search, this]
    | succ n' =>
      unfold unicode.toCase.search
      by_cases hlt : lo < hi
      · simp only [hlt, if_true]
        cases caseRange[(lo + hi) / 2]? with
        | none => rfl
        | some cr =>
          simp only
          rw [ih n' lo ((lo + hi) / 2) (by omega) (by omega),
            ih n' ((lo + hi) / 2 + 1) hi (by omega) (by omega)]
      · simp [hlt]

theorem ToTitle_eq_ToUpper_of_ascii (CaseRanges : List unicode.CaseRange) (r : Int)
    (h : r ≤ 127) : unicode.ToTitle CaseRanges r = unicode.ToUpper CaseRanges r := by
  simp [unicode.ToTitle, unicode.ToUpper, unicode.MaxASCII, h]

theorem runeToChar_ToTitle_ascii (CaseRanges : List unicode.CaseRange) (c : Char)
    (h : c.toNat ≤ 127) :
    0 ≤ unicode.ToTitle CaseRanges (c.toNat : Int) ∧
      strings.runeToChar (unicode.ToTitle CaseRanges (c.toNat : Int)) = c.toUpper := by
  have h' : (c.toNat : Int) ≤ 127 := by exact_mod_cast h
  unfold unicode.ToTitle unicode.MaxASCII
  rw [if_pos h']
  by_cases hl : 97 ≤ c.toNat ∧ c.toNat ≤ 122
  · have hl' : (97 : Int) ≤ (c.toNat : Int) ∧ (c.toNat : Int) ≤ 122 := by
      constructor <;> [exact_mod_cast hl.1; exact_mod_cast hl.2]
    rw [if_pos hl']
    have e : ((c.toNat : Int) - (97 - 65)).toNat = c.toNat - 32 := by omega
    have hv : (c.toNat - 32).isValidChar := by
      left; omega
    refine ⟨by omega, ?_⟩
    unfold strings.runeToChar Char.toUpper
    rw [e, if_pos hv]
    simp [hl]
  · have hl' : ¬ ((97 : Int) ≤ (c.toNat : Int) ∧ (c.toNat : Int) ≤ 122) := by
      intro hh; apply hl; constructor <;> [exact_mod_cast hh.1; exact_mod_cast hh.2]
    rw [if_neg hl']
    refine ⟨by omega, ?_⟩
    unfold strings.runeToChar Char.toUpper
    have hv : (c.toNat : Int).toNat.isValidChar := by
      left; simp; omega
    rw [if_pos hv]
    simp [hl]

theorem Map_congr (f g : Int → Int) (s : String)
    (h : ∀ c ∈ s.data, f (c.toNat : Int) = g (c.toNat : Int)) :
    strings.Map f s = strings.Map g s := by
  unfold strings.Map
  congr 1
  apply List.filterMap_congr
  intro c hc
  simp only [h c hc]

theorem ToTitle_ascii (CaseRanges : List unicode.CaseRange) (s : String)
    (h : ∀ c ∈ s.data, c.toNat ≤ 127) :
    strings.ToTitle CaseRanges s = ⟨s.data.map Char.toUpper⟩ := by
  unfold strings.ToTitle strings.Map
  congr 1
  generalize s.data = l at h
  induction l with
  | nil => rfl
  | cons c l ih =>
    have hc := runeToChar_ToTitle_ascii CaseRanges c (h c (List.mem_cons_self c l))
    rw [List.filterMap_cons]
    simp only [hc.1, hc.2, if_true, List.map_cons]
    rw [ih (fun d hd => h d (List.mem_cons_of_mem c hd))]

theorem TrimSpace_data (s : String) :
    (strings.TrimSpace s).data =
      (s.data.dropWhile unicode.IsSpace).rdropWhile unicode.IsSpace :=
  rfl

/-- A newline of the trimmed string is never its last character. -/
theorem TrimSpace_last_not_newline (s : String) (i : Nat)
    (h : (strings.TrimSpace s).data[i]? = some '\n') :
    i + 1 < (strings.TrimSpace s).data.length := by
  rw [TrimSpace_data] at *
  generalize (s.data.dropWhile unicode.IsSpace) = l at *
  have hi : i < (l.rdropWhile unicode.IsSpace).length := (List.getElem?_eq_some_iff.mp h).1
  by_contra hcon
  have hne : l.rdropWhile unicode.IsSpace ≠ [] := by
    intro h0; rw [h0] at hi; simp at hi
  have hlast := List.rdropWhile_last_not unicode.IsSpace l hne
  have : (l.rdropWhile unicode.IsSpace).getLast hne = '\n' := by
    rw [List.getLast_eq_getElem]
    have e : (l.rdropWhile unicode.IsSpace).length - 1 = i := by omega
    have h2 := (List.getElem?_eq_some_iff.mp h).2
    simp only [e]
    exact h2
  rw [this] at hlast
  exact hlast (by decide)

/-! ## Task staging: the properties -/

/-- C1: when some task of the report has key `k`, `UpdateTask k s` succeeds, keeps the length of
the task sequence, gives the first task with key `k` (index `i`, no earlier index has that key)
the status `s` while keeping its key and description, and leaves the task at every other index,
later tasks with key `k` included, as it was. -/
theorem UpdateTask_present_updates_first (r : Progress) (k s : String)
    (h : ∃ t ∈ r.Tasks, t.Key = k) :
    (r.UpdateTask k s).2 = none ∧
    (r.UpdateTask k s).1.Tasks.length = r.Tasks.length ∧
    ∃ (i : Nat) (t : Task), r.Tasks[i]? = some t ∧ t.Key = k ∧
      (∀ (j : Nat) (u : Task), j < i → r.Tasks[j]? = some u → u.Key ≠ k) ∧
      (r.UpdateTask k s).1.Tasks[i]? =
        some { Key := t.Key, Description := t.Description, Status := s } ∧
      ∀ j : Nat, j ≠ i → (r.UpdateTask k s).1.Tasks[j]? = r.Tasks[j]? := by
  obtain ⟨m, t, hm, hk, hfirst⟩ := exists_first_key k r.Tasks h
  have hlt : m < r.Tasks.length := (List.getElem?_eq_some_iff.mp hm).1
  rw [UpdateTask_eq_of_first r k s m t hm hk hfirst]
  refine ⟨rfl, by simp, m, t, hm, hk, hfirst, ?_, ?_⟩
  · simp [hlt]
  · intro j hj
    simp [List.getElem?_set, Ne.symm hj]

/-- C1 at the report `twoA` (two tasks with key `a`), key `a` and status `done`. -/
theorem UpdateTask_present_updates_first_witness :
    (∃ t ∈ twoA.Tasks, t.Key = "a") ∧
    (twoA.UpdateTask "a" "done").2 = none ∧
    (twoA.UpdateTask "a" "done").1.Tasks.length = twoA.Tasks.length ∧
    ∃ (i : Nat) (t : Task), twoA.Tasks[i]? = some t ∧ t.Key = "a" ∧
      (∀ (j : Nat) (u : Task), j < i → twoA.Tasks[j]? = some u → u.Key ≠ "a") ∧
      (twoA.UpdateTask "a" "done").1.Tasks[i]? =
        some { Key := t.Key, Description := t.Description, Status := "done" } ∧
      ∀ j : Nat, j ≠ i → (twoA.UpdateTask "a" "done").1.Tasks[j]? = twoA.Tasks[j]? :=
  ⟨⟨⟨"a", "A", "pending"⟩, by decide, rfl⟩,
    UpdateTask_present_updates_first twoA "a" "done" ⟨⟨"a", "A", "pending"⟩, by decide, rfl⟩⟩

/-- C2: `UpdateTask k s` returns an error exactly when no task of the report has key `k`; the
error text is then `no task at key ` followed by `k`, and the returned report is the receiver,
task sequence included. -/
theorem UpdateTask_error_iff_absent (r : Progress) (k s : String) :
    ((r.UpdateTask k s).2 ≠ none ↔ ∀ t ∈ r.Tasks, t.Key ≠ k) ∧
    ((∀ t ∈ r.Tasks, t.Key ≠ k) →
      r.UpdateTask k s = (r, some ("no task at key " ++ k))) := by
  refine ⟨⟨fun herr t ht htk => herr (UpdateTask_ok_of_present r k s ⟨t, ht, htk⟩), ?_⟩,
    UpdateTask_eq_of_absent r k s⟩
  intro h
  rw [UpdateTask_eq_of_absent r k s h]
  simp

/-- C2 at the report `twoA` and the key `b`, which none of its tasks has. -/
theorem UpdateTask_error_iff_absent_witness :
    (∀ t ∈ twoA.Tasks, t.Key ≠ "b") ∧
      twoA.UpdateTask "b" "done" = (twoA, some "no task at key b") :=
  ⟨by decide, (UpdateTask_error_iff_absent twoA "b" "done").2 (by decide)⟩

/-- C6: `StartTask` succeeds; the returned task sequence is one longer than the receiver's, its
last task has exactly the given key, description and status (also when the key is already in
use), and the tasks before it are the receiver's tasks in the same order. -/
theorem StartTask_appends_last (r : Progress) (key description status : String) :
    (r.StartTask key description status).2 = none ∧
    (r.StartTask key description status).1.Tasks.length = r.Tasks.length + 1 ∧
    (r.StartTask key description status).1.Tasks.getLast? =
      some { Key := key, Description := description, Status := status } ∧
    (r.StartTask key description status).1.Tasks[r.Tasks.length]? =
      some { Key := key, Description := description, Status := status } ∧
    (r.StartTask key description status).1.Tasks.take r.Tasks.length = r.Tasks := by
  refine ⟨rfl, by simp [Progress.StartTask], by simp [Progress.StartTask],
    by simp [Progress.StartTask], by simp [Progress.StartTask]⟩


/-! ## Summary staging: the properties -/

theorem AppendSummary_nonempty (r : Progress) (t : String) (h : r.Summary ≠ "") :
    (r.AppendSummary t).1.Summary =
      strings.TrimSpace r.Summary ++
        (if strings.HasSuffix r.Summary "\n" then "" else "\n") ++ t := by
  simp [Progress.AppendSummary, h]

/-- In `A ++ S ++ T`, where `S` is empty or one newline, no newline of `A` is last in `A` and
`T` does not start with a newline, a blank line lies wholly inside `A` or wholly inside `T`. -/
theorem join_no_double_newline (A S T : List Char) (i : Nat)
    (hS : S = [] ∨ S = ['\n'])
    (hlast : ∀ j : Nat, A[j]? = some '\n' → j + 1 < A.length)
    (ht : T.head? ≠ some '\n')
    (h1 : (A ++ S ++ T)[i]? = some '\n') (h2 : (A ++ S ++ T)[i + 1]? = some '\n') :
    i + 1 < A.length ∨ (A ++ S ++ T).length - T.length ≤ i := by
  by_contra hcon
  rw [not_or] at hcon
  obtain ⟨hc1, hc2⟩ := hcon
  have hia : i < A.length → False := by
    intro hlt
    have := hlast i (by rw [List.append_assoc, List.getElem?_append_left hlt] at h1; exact h1)
    exact hc1 this
  rcases hS with hS | hS
  · subst hS
    simp at hc2
    exact hia (by omega)
  · subst hS
    simp at hc2
    have hi : i = A.length := by
      by_contra hne
      exact hia (by omega)
    subst hi
    have h0 : T[0]? = some '\n' := by
      rw [List.append_assoc, List.getElem?_append_right (by omega)] at h2
      simpa using h2
    apply ht
    rw [← h0]
    cases T <;> simp

/-- C3, evaluated where the code departs from it: on the summary `a` followed by a newline and
the text `b`, `AppendSummary` yields `ab`.  The final newline suppresses the separator and is
then itself removed by `TrimSpace`, so the trimmed old summary and the new text are joined with
no newline at all, instead of the required `a`, newline, `b`. -/
theorem AppendSummary_after_newline_no_separator :
    ({ oneLine with Summary := "a\n" }.AppendSummary "b").1.Summary = "ab" ∧
    ({ oneLine with Summary := "a\n" }.AppendSummary "b").1.Summary ≠
      strings.TrimSpace "a\n" ++ "\n" ++ "b" := by
  decide

/-- C4 fails as stated: on the summary `a` and a text that starts with a newline, the result is
`a`, newline, newline, `b`; the blank line at position 1 is made of the separator and the first
character of the text, so it lies neither inside the trimmed old summary nor inside the text. -/
theorem AppendSummary_blank_line_at_join :
    (oneLine.AppendSummary "\nb").1.Summary = "a\n\nb" ∧
    blankLineAt (oneLine.AppendSummary "\nb").1.Summary 1 ∧
    ¬ (1 + 1 < (strings.TrimSpace oneLine.Summary).length ∨
        (oneLine.AppendSummary "\nb").1.Summary.length - ("\nb" : String).length ≤ 1) := by
  decide

/-- C4, amended: when the appended text `t` does not start with a newline, every blank line
(two consecutive newlines) of the summary produced by `AppendSummary t` lies wholly inside the
trimmed old summary or wholly inside `t`; none sits at the point where the two are joined. -/
theorem AppendSummary_no_blank_line_at_join (r : Progress) (t : String) (i : Nat)
    (ht : t.data.head? ≠ some '\n')
    (h : blankLineAt (r.AppendSummary t).1.Summary i) :
    i + 1 < (strings.TrimSpace r.Summary).length ∨
      (r.AppendSummary t).1.Summary.length - t.length ≤ i := by
  by_cases hs : r.Summary = ""
  · right
    simp [Progress.AppendSummary, hs]
  · obtain ⟨h1, h2⟩ := h
    rw [AppendSummary_nonempty r t hs] at h1 h2 ⊢
    have hlast := TrimSpace_last_not_newline r.Summary
    rw [String.data_append, String.data_append] at h1 h2
    show i + 1 < (strings.TrimSpace r.Summary).data.length ∨
      (strings.TrimSpace r.Summary ++
        (if strings.HasSuffix r.Summary "\n" then "" else "\n") ++ t).data.length -
          t.data.length ≤ i
    rw [String.data_append, String.data_append]
    refine join_no_double_newline _ _ _ i ?_ hlast ht h1 h2
    by_cases hsuf : strings.HasSuffix r.Summary "\n" = true
    · left; simp [hsuf]
    · right; simp [hsuf]

/-- C4, amended, at a summary and a text that both contain blank lines: the blank line at
position 1 of the result lies inside the trimmed old summary. -/
theorem AppendSummary_no_blank_line_at_join_witness :
    ("b\n\n" : String).data.head? ≠ some '\n' ∧
    blankLineAt ({ oneLine with Summary := "x\n\ny\n\n" }.AppendSummary "b\n\n").1.Summary 1 ∧
    (1 + 1 < (strings.TrimSpace "x\n\ny\n\n").length ∨
      ({ oneLine with Summary := "x\n\ny\n\n" }.AppendSummary "b\n\n").1.Summary.length -
        ("b\n\n" : String).length ≤ 1) :=
  ⟨by decide, by decide,
    AppendSummary_no_blank_line_at_join { oneLine with Summary := "x\n\ny\n\n" } "b\n\n" 1
      (by decide) (by decide)⟩

/-- C5: on a report whose summary is empty, `AppendSummary t` succeeds and sets the summary to
exactly `t`, nothing added before or after; no other field changes. -/
theorem AppendSummary_empty (r : Progress) (t : String) (h : r.Summary = "") :
    (r.AppendSummary t).2 = none ∧ (r.AppendSummary t).1.Summary = t ∧
      (r.AppendSummary t).1 = { r with Summary := t } := by
  simp [Progress.AppendSummary, h]

/-- C5 at the report `twoA` and a text with white space on both sides. -/
theorem AppendSummary_empty_witness :
    twoA.Summary = "" ∧ (twoA.AppendSummary "\n b \n").2 = none ∧
      (twoA.AppendSummary "\n b \n").1.Summary = "\n b \n" ∧
      (twoA.AppendSummary "\n b \n").1 = { twoA with Summary := "\n b \n" } :=
  ⟨rfl, AppendSummary_empty twoA "\n b \n" rfl⟩

/-! ## Rendering: the properties -/

theorem foldl_rows (l : List Task) (init : String) :
    l.foldl (fun contents task =>
        contents ++ ("<tr><td>" ++ task.Description ++ "</td><td>" ++ task.Status ++
          "</td></tr>\n")) init =
      init ++ unlines (l.map dataRow) := by
  induction l generalizing init with
  | nil => simp [unlines]
  | cons t l ih =>
    have e : ("</td></tr>\n" : String) = "</td></tr>" ++ "\n" := by decide
    rw [List.foldl_cons, ih, List.map_cons, unlines, dataRow, e]
    simp only [String.append_assoc]

theorem contents_closed_form (r : Progress) (now : String) :
    Progress.Publish.contents r now =
      (if r.Title ≠ "" then "## " ++ r.Title ++ "\n\n" else "") ++
      (if r.Summary ≠ "" then r.Summary ++ "\n\n" else "") ++
      (if r.Tasks ≠ [] then tableHead ++ unlines (r.Tasks.map dataRow) ++ "</table>\n"
        else "") ++
      footnote now := by
  unfold Progress.Publish.contents
  simp only [foldl_rows]
  by_cases h3 : r.Tasks = []
  · by_cases h1 : r.Title = "" <;> by_cases h2 : r.Summary = "" <;>
      simp only [h1, h2, h3, List.length_nil, gt_iff_lt, Nat.lt_irrefl, ne_eq, not_true_eq_false,
        not_false_eq_true, if_true, if_false, footnote, String.append_assoc,
        String.empty_append, String.append_empty]
  · have hlen : r.Tasks.length > 0 := List.length_pos.mpr h3
    by_cases h1 : r.Title = "" <;> by_cases h2 : r.Summary = "" <;>
      simp only [h1, h2, h3, hlen, ne_eq, not_true_eq_false, not_false_eq_true, if_true,
        if_false, footnote, tableHead, String.append_assoc, String.empty_append,
        String.append_empty]

/-- C7: the body built by `Publish` is, in this order, the heading `## ` + title + blank line
exactly when the title is non-empty, the summary + blank line exactly when the summary is
non-empty, the `### Tasks` heading with the Description/Status table exactly when there are
tasks, and always the footnote holding the time stamp; with nothing staged it is the footnote
alone. -/
theorem Publish_contents_sections (r : Progress) (ts : String) :
    Progress.Publish.contents r ts =
      (if r.Title ≠ "" then "## " ++ r.Title ++ "\n\n" else "") ++
      (if r.Summary ≠ "" then r.Summary ++ "\n\n" else "") ++
      (if r.Tasks ≠ [] then tableHead ++ unlines (r.Tasks.map dataRow) ++ "</table>\n"
        else "") ++
      footnote ts ∧
    (r.Title = "" → r.Summary = "" → r.Tasks = [] →
      Progress.Publish.contents r ts = footnote ts) := by
  refine ⟨contents_closed_form r ts, fun h1 h2 h3 => ?_⟩
  rw [contents_closed_form r ts]
  simp only [h1, h2, h3, ne_eq, not_true_eq_false, if_false, String.empty_append]

/-- C7 at the report `bare`, which has no title, no summary and no task. -/
theorem Publish_contents_sections_witness :
    bare.Title = "" ∧ bare.Summary = "" ∧ bare.Tasks = [] ∧
      Progress.Publish.contents bare "2024-05-01 10:00:00 UTC" =
        "\n<sub>*Last update: 2024-05-01 10:00:00 UTC*<sub>\n" :=
  ⟨rfl, rfl, rfl,
    (Publish_contents_sections bare "2024-05-01 10:00:00 UTC").2 rfl rfl rfl⟩

/-- C8: when the report has tasks, the table of the rendered body holds, between the header row
and `</table>`, exactly the lines `dataRow t` for the tasks `t` in sequence order: one row per
task, the row of the task at index `i` being `<tr><td>` + description + `</td><td>` + status +
`</td></tr>` with both texts inserted as they are, whatever the task keys. -/
theorem Publish_contents_rows (r : Progress) (ts : String) (h : r.Tasks ≠ []) :
    Progress.Publish.contents r ts =
      (if r.Title ≠ "" then "## " ++ r.Title ++ "\n\n" else "") ++
      (if r.Summary ≠ "" then r.Summary ++ "\n\n" else "") ++
      tableHead ++ unlines (r.Tasks.map dataRow) ++ "</table>\n" ++ footnote ts ∧
    (r.Tasks.map dataRow).length = r.Tasks.length ∧
    ∀ (i : Nat) (t : Task), r.Tasks[i]? = some t →
      (r.Tasks.map dataRow)[i]? =
        some ("<tr><td>" ++ t.Description ++ "</td><td>" ++ t.Status ++ "</td></tr>") := by
  refine ⟨?_, by simp, ?_⟩
  · rw [contents_closed_form r ts]
    simp only [h, ne_eq, not_false_eq_true, if_true, String.append_assoc]
  · intro i t hi
    simp [hi, dataRow]

/-- C8 at the report `twoA`, whose two tasks share a key: two rows, in sequence order. -/
theorem Publish_contents_rows_witness :
    twoA.Tasks ≠ [] ∧
    Progress.Publish.contents twoA "now" =
      "### Tasks\n\n<table>\n<tr><th>Description</th><th>Status</th></tr>\n" ++
      "<tr><td>A</td><td>pending</td></tr>\n<tr><td>A2</td><td>pending</td></tr>\n" ++
      "</table>\n" ++ "\n<sub>*Last update: now*<sub>\n" :=
  ⟨by decide, (Publish_contents_rows twoA "now" (by decide)).1⟩

/-- C9: two reports with the same title, the same summary and the same descriptions and
statuses in the same order render to the same body for the same time stamp, whatever their
token, repository, issue, key and task keys. -/
theorem Publish_contents_ignores_identity_and_keys (r₁ r₂ : Progress) (ts : String)
    (hT : r₁.Title = r₂.Title) (hS : r₁.Summary = r₂.Summary)
    (hD : r₁.Tasks.map (fun t => (t.Description, t.Status)) =
      r₂.Tasks.map (fun t => (t.Description, t.Status))) :
    Progress.Publish.contents r₁ ts = Progress.Publish.contents r₂ ts := by
  have hrow : ∀ l : List Task, l.map dataRow =
      (l.map (fun t => (t.Description, t.Status))).map
        (fun p => "<tr><td>" ++ p.1 ++ "</td><td>" ++ p.2 ++ "</td></tr>") := by
    intro l
    simp [dataRow, Function.comp_def]
  have hnil : r₁.Tasks = [] ↔ r₂.Tasks = [] := by
    have hl := congrArg List.length hD
    simp only [List.length_map] at hl
    rw [← List.length_eq_zero, ← List.length_eq_zero (l := r₂.Tasks), hl]
  rw [contents_closed_form, contents_closed_form, hT, hS, hrow r₁.Tasks, hrow r₂.Tasks, hD]
  simp only [ne_eq, hnil]

/-- C9 at `renderedA` and `renderedB`, which differ in every identity field and task key. -/
theorem Publish_contents_ignores_identity_and_keys_witness :
    renderedA.Key ≠ renderedB.Key ∧ renderedA.Tasks ≠ renderedB.Tasks ∧
      Progress.Publish.contents renderedA "now" = Progress.Publish.contents renderedB "now" :=
  ⟨by decide, by decide,
    Publish_contents_ignores_identity_and_keys renderedA renderedB "now" rfl rfl rfl⟩

/-! ## Title staging: the properties -/

/-- C10 fails as stated: with the entries of the Go case table for U+01C4..U+01CC, `WriteTitle`
on the one-letter text U+01C6 (small dz with caron) stores U+01C5, the title-case letter,
whereas the upper-case mapping of that text is U+01C4. -/
theorem WriteTitle_title_case_not_upper_case :
    (Progress.WriteTitle unicode.digraphCaseRanges bare "\u01C6").1.Title = "\u01C5" ∧
    strings.ToUpper unicode.digraphCaseRanges "\u01C6" = "\u01C4" ∧
    (Progress.WriteTitle unicode.digraphCaseRanges bare "\u01C6").1.Title ≠
      strings.ToUpper unicode.digraphCaseRanges "\u01C6" := by
  decide

/-- C10, amended: `WriteTitle t` succeeds and stores the title-case mapping of `t` (every code
point mapped by `unicode.ToTitle`), whatever the previous title; this is the upper-case mapping
of `t` whenever title case and upper case agree on every character of `t`, in particular when
`t` is ASCII, where it is `t` with the letters `a`..`z` replaced by `A`..`Z`. -/
theorem WriteTitle_sets_title_case (CaseRanges : List unicode.CaseRange) (r : Progress)
    (t : String) :
    (Progress.WriteTitle CaseRanges r t).2 = none ∧
    (Progress.WriteTitle CaseRanges r t).1.Title = strings.Map (unicode.ToTitle CaseRanges) t ∧
    ((∀ c ∈ t.data, unicode.ToTitle CaseRanges (c.toNat : Int) =
        unicode.ToUpper CaseRanges (c.toNat : Int)) →
      (Progress.WriteTitle CaseRanges r t).1.Title = strings.ToUpper CaseRanges t) ∧
    ((∀ c ∈ t.data, c.toNat ≤ 127) →
      (Progress.WriteTitle CaseRanges r t).1.Title = strings.ToUpper CaseRanges t ∧
      (Progress.WriteTitle CaseRanges r t).1.Title = ⟨t.data.map Char.toUpper⟩) := by
  refine ⟨rfl, rfl, fun h => Map_congr _ _ t h, fun h => ⟨?_, ToTitle_ascii CaseRanges t h⟩⟩
  exact Map_congr _ _ t
    (fun c hc => ToTitle_eq_ToUpper_of_ascii CaseRanges _ (by exact_mod_cast h c hc))

/-- C10, amended, at a report that already has a title and the ASCII text `release v2`. -/
theorem WriteTitle_sets_title_case_witness :
    (∀ c ∈ ("release v2" : String).data, c.toNat ≤ 127) ∧
    (Progress.WriteTitle unicode.digraphCaseRanges renderedA "release v2").1.Title =
      "RELEASE V2" :=
  ⟨by decide,
    ((WriteTitle_sets_title_case unicode.digraphCaseRanges renderedA "release v2").2.2.2
      (by decide)).2⟩

/-- C11: `WriteTitle` is idempotent: calling `WriteTitle t` on the report returned by
`WriteTitle t` returns the same report, and the same nil error, as the first call. -/
theorem WriteTitle_idempotent (CaseRanges : List unicode.CaseRange) (r : Progress) (t : String) :
    Progress.WriteTitle CaseRanges (Progress.WriteTitle CaseRanges r t).1 t =
      Progress.WriteTitle CaseRanges r t := by
  simp [Progress.WriteTitle]

/-- C12: `WriteSummary t` succeeds and returns a report whose summary is exactly `t`, whatever
the previous summary was, and whose title and task sequence are those of the receiver. -/
theorem WriteSummary_overwrites (r : Progress) (t : String) :
    (r.WriteSummary t).2 = none ∧ (r.WriteSummary t).1.Summary = t ∧
    (r.WriteSummary t).1.Title = r.Title ∧ (r.WriteSummary t).1.Tasks = r.Tasks :=
  ⟨rfl, rfl, rfl, rfl⟩

/-- C20: on a summary that is non-empty, made of white space only and not ended by a newline,
`AppendSummary t` succeeds and sets the summary to a newline followed by `t`: the old white
space is trimmed away and the separator comes first. -/
theorem AppendSummary_blank_summary (r : Progress) (t : String)
    (hne : r.Summary ≠ "") (hws : ∀ c ∈ r.Summary.data, unicode.IsSpace c = true)
    (hnl : strings.HasSuffix r.Summary "\n" = false) :
    (r.AppendSummary t).2 = none ∧ (r.AppendSummary t).1.Summary = "\n" ++ t := by
  have htrim : strings.TrimSpace r.Summary = "" := by
    have h1 : r.Summary.data.dropWhile unicode.IsSpace = [] := by
      rw [List.dropWhile_eq_nil_iff]
      exact hws
    unfold strings.TrimSpace
    rw [h1]
    rfl
  refine ⟨by simp [Progress.AppendSummary, hne], ?_⟩
  rw [AppendSummary_nonempty r t hne, htrim, hnl]
  simp only [Bool.false_eq_true, if_false, String.empty_append]

/-- C20 at a summary made of a single space. -/
theorem AppendSummary_blank_summary_witness :
    ({ oneLine with Summary := " " }).Summary ≠ "" ∧
    (∀ c ∈ ({ oneLine with Summary := " " }).Summary.data, unicode.IsSpace c = true) ∧
    strings.HasSuffix ({ oneLine with Summary := " " }).Summary "\n" = false ∧
    ({ oneLine with Summary := " " }.AppendSummary "b").1.Summary = "\nb" :=
  ⟨by decide, by decide, by decide,
    (AppendSummary_blank_summary { oneLine with Summary := " " } "b" (by decide) (by decide)
      (by decide)).2⟩

/-! ## Sequences of staging calls: the properties -/

theorem UpdateTask_cases (r : Progress) (k s : String) :
    (∃ tasks, r.UpdateTask k s = ({ r with Tasks := tasks }, none)) ∨
      r.UpdateTask k s = (r, some ("no task at key " ++ k)) := by
  by_cases h : ∃ t ∈ r.Tasks, t.Key = k
  · obtain ⟨m, t, hm, hk, hfirst⟩ := exists_first_key k r.Tasks h
    exact Or.inl ⟨_, UpdateTask_eq_of_first r k s m t hm hk hfirst⟩
  · right
    apply UpdateTask_eq_of_absent
    intro t ht hk
    exact h ⟨t, ht, hk⟩

theorem call_identity (CaseRanges : List unicode.CaseRange) (op : Staging) (r : Progress) :
    identity (op.call CaseRanges r).1 = identity r := by
  cases op with
  | WriteTitle t => rfl
  | WriteSummary t => rfl
  | AppendSummary t =>
    show identity (r.AppendSummary t).1 = identity r
    unfold Progress.AppendSummary
    split <;> rfl
  | StartTask k d s => rfl
  | UpdateTask k s =>
    show identity (r.UpdateTask k s).1 = identity r
    rcases UpdateTask_cases r k s with ⟨tasks, h⟩ | h
    · rw [h]; rfl
    · rw [h]

theorem run_identity (CaseRanges : List unicode.CaseRange) (ops : List Staging) (r : Progress) :
    identity (Staging.run CaseRanges ops r) = identity r := by
  induction ops generalizing r with
  | nil => rfl
  | cons op ops ih => rw [Staging.run, ih, call_identity]

/-- C13: every staging call, whatever its arguments and whether it succeeds or fails, returns a
report with the key, repository, issue and credential of its receiver; hence the report
obtained from `New key token repo issue` by any sequence of staging calls still carries these
four construction inputs. -/
theorem identity_fields_invariant (CaseRanges : List unicode.CaseRange) :
    (∀ (op : Staging) (r : Progress),
      (op.call CaseRanges r).1.Key = r.Key ∧ (op.call CaseRanges r).1.Repo = r.Repo ∧
      (op.call CaseRanges r).1.Issue = r.Issue ∧ (op.call CaseRanges r).1.Token = r.Token) ∧
    (∀ (ops : List Staging) (key : String) (token : Option Secret) (repo : String) (issue : Int),
      (Staging.run CaseRanges ops (New key token repo issue)).Key = key ∧
      (Staging.run CaseRanges ops (New key token repo issue)).Repo = repo ∧
      (Staging.run CaseRanges ops (New key token repo issue)).Issue = issue ∧
      (Staging.run CaseRanges ops (New key token repo issue)).Token = token) := by
  constructor
  · intro op r
    have h := call_identity CaseRanges op r
    simp only [identity, Prod.mk.injEq] at h
    exact ⟨h.1, h.2.2.1, h.2.2.2, h.2.1⟩
  · intro ops key token repo issue
    have h := run_identity CaseRanges ops (New key token repo issue)
    simp only [identity, Prod.mk.injEq] at h
    exact ⟨h.1, h.2.2.1, h.2.2.2, h.2.1⟩

theorem ToTitle_release (CaseRanges : List unicode.CaseRange) :
    strings.ToTitle CaseRanges "release v2" = "RELEASE V2" :=
  (ToTitle_ascii CaseRanges "release v2" (by decide)).trans (by decide)

theorem run_releaseOps (CaseRanges : List unicode.CaseRange) (key : String)
    (token : Option Secret) (repo : String) (issue : Int) :
    Staging.run CaseRanges releaseOps (New key token repo issue) =
      { Token := token, Repo := repo, Issue := issue, Key := key, Title := "RELEASE V2",
        Summary := "rolling out", Tasks := [⟨"build", "Build image", "done"⟩] } ∧
    Staging.errors CaseRanges releaseOps (New key token repo issue) =
      [none, none, none, none] := by
  simp [releaseOps, Staging.run, Staging.errors, Staging.call, Progress.WriteTitle,
    Progress.WriteSummary, Progress.StartTask, Progress.UpdateTask, Progress.UpdateTask.scan,
    New, ToTitle_release, List.range, List.range.loop]

set_option maxRecDepth 20000 in
theorem releaseBody_no_pending : ¬ ("pending".data <:+: releaseBody.data) := by
  decide

/-- C17: the four calls `WriteTitle "release v2"`, `WriteSummary "rolling out"`,
`StartTask "build" "Build image" "pending"`, `UpdateTask "build" "done"` on a fresh report all
succeed, and the resulting report renders to `releaseBody` followed by the footnote: the heading
`## RELEASE V2`, the text `rolling out`, and a table with exactly one data row, of description
`Build image` and status `done`; the word `pending` occurs nowhere in `releaseBody`. -/
theorem round_trip_release (CaseRanges : List unicode.CaseRange) (key : String)
    (token : Option Secret) (repo : String) (issue : Int) (ts : String) :
    Staging.errors CaseRanges releaseOps (New key token repo issue) = [none, none, none, none] ∧
    (Staging.run CaseRanges releaseOps (New key token repo issue)).Tasks.map dataRow =
      ["<tr><td>Build image</td><td>done</td></tr>"] ∧
    Progress.Publish.contents (Staging.run CaseRanges releaseOps (New key token repo issue)) ts =
      releaseBody ++ footnote ts ∧
    releaseBody = "## RELEASE V2\n\n" ++ "rolling out\n\n" ++ tableHead ++
      unlines ["<tr><td>Build image</td><td>done</td></tr>"] ++ "</table>\n" ∧
    ¬ ("pending".data <:+: releaseBody.data) := by
  obtain ⟨hrun, herr⟩ := run_releaseOps CaseRanges key token repo issue
  refine ⟨herr, ?_, ?_, rfl, releaseBody_no_pending⟩
  · rw [hrun]
    show [dataRow ⟨"build", "Build image", "done"⟩] = _
    decide
  · rw [hrun, contents_closed_form]
    simp only [ne_eq, List.map_cons, List.map_nil, dataRow]
    rfl

/-- C18 fails as stated: two `StartTask` calls with the key `a` on a fresh report yield the
report `twoA`, whose two tasks share that key. -/
theorem duplicate_keys_reachable :
    Staging.run [] [.StartTask "a" "A" "pending", .StartTask "a" "A2" "pending"]
      (New "r" none "o/p" 7) = twoA ∧ ¬ keysUnique twoA := by
  decide

theorem call_keys (CaseRanges : List unicode.CaseRange) (op : Staging) (r : Progress) :
    (op.call CaseRanges r).1.Tasks.map Task.Key =
      match op with
      | .StartTask key _ _ => r.Tasks.map Task.Key ++ [key]
      | _ => r.Tasks.map Task.Key := by
  cases op with
  | WriteTitle t => rfl
  | WriteSummary t => rfl
  | AppendSummary t =>
    show (r.AppendSummary t).1.Tasks.map Task.Key = _
    unfold Progress.AppendSummary
    split <;> rfl
  | StartTask k d s => simp [Staging.call, Progress.StartTask]
  | UpdateTask k s =>
    show (r.UpdateTask k s).1.Tasks.map Task.Key = r.Tasks.map Task.Key
    by_cases h : ∃ t ∈ r.Tasks, t.Key = k
    · obtain ⟨m, t, hm, hk, hfirst⟩ := exists_first_key k r.Tasks h
      rw [UpdateTask_eq_of_first r k s m t hm hk hfirst]
      have hlt : m < r.Tasks.length := (List.getElem?_eq_some_iff.mp hm).1
      apply List.ext_getElem?
      intro j
      simp only [List.getElem?_map, List.getElem?_set]
      by_cases hj : m = j
      · subst hj; simp [hlt, hm]
      · simp [hj]
    · rw [UpdateTask_eq_of_absent r k s (fun t ht hk => h ⟨t, ht, hk⟩)]

theorem keys_unique_of_fresh (CaseRanges : List unicode.CaseRange) (ops : List Staging)
    (r : Progress) (hr : keysUnique r) (h : Staging.freshKeys CaseRanges ops r = true) :
    keysUnique (Staging.run CaseRanges ops r) := by
  induction ops generalizing r with
  | nil => exact hr
  | cons op ops ih =>
    have hstep : keysUnique (op.call CaseRanges r).1 ∧
        Staging.freshKeys CaseRanges ops (op.call CaseRanges r).1 = true := by
      cases op
      case StartTask k d s =>
        simp only [Staging.freshKeys, Bool.and_eq_true, List.all_eq_true,
          decide_eq_true_eq] at h
        refine ⟨?_, h.2⟩
        unfold keysUnique
        rw [call_keys, List.nodup_append]
        refine ⟨hr, List.nodup_singleton k, ?_⟩
        intro a ha hb
        rw [List.mem_singleton] at hb
        subst hb
        obtain ⟨t, ht, htk⟩ := List.mem_map.mp ha
        exact h.1 t ht htk
      all_goals
        simp only [Staging.freshKeys, Bool.true_and] at h
        refine ⟨?_, h⟩
        unfold keysUnique
        rw [call_keys]
        exact hr
    exact ih _ hstep.1 hstep.2

/-- C18, amended: in every report obtained from `New` by a sequence of staging calls in which
each `StartTask` is given a key that no task of the report it is called on has yet, no two tasks
have the same key. -/
theorem keys_unique_when_started_fresh (CaseRanges : List unicode.CaseRange)
    (ops : List Staging) (key : String) (token : Option Secret) (repo : String) (issue : Int)
    (h : Staging.freshKeys CaseRanges ops (New key token repo issue) = true) :
    keysUnique (Staging.run CaseRanges ops (New key token repo issue)) :=
  keys_unique_of_fresh CaseRanges ops (New key token repo issue) List.nodup_nil h

/-- C18, amended, at a sequence that starts `a`, updates it and starts `b`. -/
theorem keys_unique_when_started_fresh_witness :
    Staging.freshKeys [] [.StartTask "a" "A" "pending", .UpdateTask "a" "done",
      .StartTask "b" "B" "pending"] (New "r" none "o/p" 7) = true ∧
    keysUnique (Staging.run [] [.StartTask "a" "A" "pending", .UpdateTask "a" "done",
      .StartTask "b" "B" "pending"] (New "r" none "o/p" 7)) :=
  ⟨by decide, keys_unique_when_started_fresh [] _ "r" none "o/p" 7 (by decide)⟩

/-- C19: when no task of `r` has key `k`, `StartTask k d s₁` followed by `UpdateTask k s₂`
succeeds and returns what `StartTask k d s₂` returns on `r`; when some task of `r` has key `k`,
the update succeeds, the new task is last and keeps status `s₁`, and the tasks before it are
those of `UpdateTask k s₂` on `r`, where the earlier task took status `s₂`. -/
theorem StartTask_then_UpdateTask (r : Progress) (k d s₁ s₂ : String) :
    ((∀ t ∈ r.Tasks, t.Key ≠ k) →
      (r.StartTask k d s₁).1.UpdateTask k s₂ = r.StartTask k d s₂) ∧
    ((∃ t ∈ r.Tasks, t.Key = k) →
      ((r.StartTask k d s₁).1.UpdateTask k s₂).2 = none ∧
      ((r.StartTask k d s₁).1.UpdateTask k s₂).1.Tasks =
        (r.UpdateTask k s₂).1.Tasks ++ [{ Key := k, Description := d, Status := s₁ }] ∧
      ((r.StartTask k d s₁).1.UpdateTask k s₂).1 =
        ((r.UpdateTask k s₂).1.StartTask k d s₁).1) := by
  constructor
  · intro h
    have hm : (r.StartTask k d s₁).1.Tasks[r.Tasks.length]? = some ⟨k, d, s₁⟩ := by
      simp [Progress.StartTask]
    rw [UpdateTask_eq_of_first (r.StartTask k d s₁).1 k s₂ r.Tasks.length ⟨k, d, s₁⟩ hm rfl]
    · simp [Progress.StartTask]
    · intro j u hj hju
      have : r.Tasks[j]? = some u := by
        simpa [Progress.StartTask, List.getElem?_append_left hj] using hju
      exact h u (List.getElem?_mem this)
  · intro h
    obtain ⟨m, t, hm, hk, hfirst⟩ := exists_first_key k r.Tasks h
    have hlt : m < r.Tasks.length := (List.getElem?_eq_some_iff.mp hm).1
    have hm' : (r.StartTask k d s₁).1.Tasks[m]? = some t := by
      simpa [Progress.StartTask, List.getElem?_append_left hlt] using hm
    have hfirst' : ∀ (j : Nat) (u : Task), j < m → (r.StartTask k d s₁).1.Tasks[j]? = some u →
        u.Key ≠ k := by
      intro j u hj hju
      have hj' : j < r.Tasks.length := by omega
      exact hfirst j u hj (by simpa [Progress.StartTask, List.getElem?_append_left hj'] using hju)
    rw [UpdateTask_eq_of_first (r.StartTask k d s₁).1 k s₂ m t hm' hk hfirst',
      UpdateTask_eq_of_first r k s₂ m t hm hk hfirst]
    simp [Progress.StartTask, List.set_append_left _ _ hlt]

/-- C19 at the report `twoA`, with the unused key `b` and with the key `a` already in use. -/
theorem StartTask_then_UpdateTask_witness :
    (∀ t ∈ twoA.Tasks, t.Key ≠ "b") ∧
    (twoA.StartTask "b" "B" "pending").1.UpdateTask "b" "done" = twoA.StartTask "b" "B" "done" ∧
    (∃ t ∈ twoA.Tasks, t.Key = "a") ∧
    ((twoA.StartTask "a" "A3" "pending").1.UpdateTask "a" "done").1.Tasks =
      (twoA.UpdateTask "a" "done").1.Tasks ++ [⟨"a", "A3", "pending"⟩] :=
  ⟨by decide, (StartTask_then_UpdateTask twoA "b" "B" "pending" "done").1 (by decide),
    ⟨⟨"a", "A", "pending"⟩, by decide, rfl⟩,
    ((StartTask_then_UpdateTask twoA "a" "A3" "pending" "done").2
      ⟨⟨"a", "A", "pending"⟩, by decide, rfl⟩).2.1⟩

/-! ## Publishing: the properties -/

/-- C15: whatever the comment sink does, `Publish` calls it exactly once (the record of calls
grows by one entry), with the credential, repository, issue and key of the report and the
rendered body, and returns exactly the error the sink returned: nil on success, the error of the
sink as it is on failure. -/
theorem Publish_calls_sink_once {σ : Type} (Create : CommentCall → σ → error × σ)
    (now : String) (r : Progress) (log : List CommentCall) (world : σ) :
    Progress.Publish (recording Create) now r (log, world) =
      ((Create ⟨r.Token, r.Repo, r.Issue, r.Key, Progress.Publish.contents r now⟩ world).1,
        (log ++ [⟨r.Token, r.Repo, r.Issue, r.Key, Progress.Publish.contents r now⟩],
          (Create ⟨r.Token, r.Repo, r.Issue, r.Key, Progress.Publish.contents r now⟩ world).2)) ∧
    Progress.Publish Create now r world =
      Create ⟨r.Token, r.Repo, r.Issue, r.Key, Progress.Publish.contents r now⟩ world :=
  ⟨rfl, rfl⟩

theorem contents_split (r : Progress) :
    ∃ body : String, ∀ now : String, Progress.Publish.contents r now = body ++ footnote now :=
  ⟨_, fun now => contents_closed_form r now⟩

/-- C16: two `Publish` calls in a row on the same report make the sink receive two calls, with
the same repository, issue and key, whose bodies are one common text followed by the footnote
of the respective time stamp; the two calls are equal when the time stamps are. -/
theorem Publish_twice_same_target {σ : Type} (Create : CommentCall → σ → error × σ)
    (now₁ now₂ : String) (r : Progress) (log : List CommentCall) (world : σ) :
    ∃ (c₁ c₂ : CommentCall) (body : String),
      (Progress.Publish (recording Create) now₂ r
        (Progress.Publish (recording Create) now₁ r (log, world)).2).2.1 = log ++ [c₁, c₂] ∧
      c₁.Repo = r.Repo ∧ c₂.Repo = r.Repo ∧ c₁.Issue = r.Issue ∧ c₂.Issue = r.Issue ∧
      c₁.MessageID = r.Key ∧ c₂.MessageID = r.Key ∧
      c₁.contents = body ++ footnote now₁ ∧ c₂.contents = body ++ footnote now₂ ∧
      (now₁ = now₂ → c₁ = c₂) := by
  obtain ⟨body, hbody⟩ := contents_split r
  refine ⟨⟨r.Token, r.Repo, r.Issue, r.Key, Progress.Publish.contents r now₁⟩,
    ⟨r.Token, r.Repo, r.Issue, r.Key, Progress.Publish.contents r now₂⟩, body, ?_, rfl, rfl, rfl,
    rfl, rfl, rfl, hbody now₁, hbody now₂, ?_⟩
  · simp [Progress.Publish, recording]
  · intro h
    rw [h]

/-- C16 at the report `renderedA`, a sink that rejects every call and equal time stamps. -/
theorem Publish_twice_same_target_witness :
    ∃ (c₁ c₂ : CommentCall) (body : String),
      (Progress.Publish (recording failingSink) "t" renderedA
        (Progress.Publish (recording failingSink) "t" renderedA ([], ())).2).2.1 =
          [] ++ [c₁, c₂] ∧
      c₁.Repo = renderedA.Repo ∧ c₂.Repo = renderedA.Repo ∧
      c₁.Issue = renderedA.Issue ∧ c₂.Issue = renderedA.Issue ∧
      c₁.MessageID = renderedA.Key ∧ c₂.MessageID = renderedA.Key ∧
      c₁.contents = body ++ footnote "t" ∧ c₂.contents = body ++ footnote "t" ∧
      ("t" = "t" → c₁ = c₂) :=
  Publish_twice_same_target failingSink "t" "t" renderedA [] ()

/-! ## Go memory: the properties

On consistent slice headers the report returned by `StartTask` and `UpdateTask` over the
memory is, as a value, the report returned by the value-level methods above; the memory-level
methods say in addition what happens to the reports the caller already holds. -/

namespace mem

theorem read_length (m : Memory) (s : Slice) (h : s.valid m) : (read m s).length = s.len := by
  unfold Slice.valid at h
  unfold read
  cases ha : s.array with
  | none => simp [ha] at h ⊢; exact h.1.symm
  | some a =>
    simp only [ha] at h ⊢
    obtain ⟨hle, arr, harr, hlen⟩ := h
    simp [List.getD, harr, List.length_take, hlen, hle]

theorem read_write (m : Memory) (s : Slice) (i : Nat) (t : Task) (h : s.valid m) :
    read (write m s i t) s = (read m s).set i t := by
  unfold Slice.valid at h
  unfold read write
  cases ha : s.array with
  | none => simp
  | some a =>
    simp only [ha] at h ⊢
    obtain ⟨hle, arr, harr, hlen⟩ := h
    have halt : a < m.length := (List.getElem?_eq_some_iff.mp harr).1
    simp [List.getD, harr, halt, List.set_take]


theorem read_append (grow : Nat → Nat → Nat) (m : Memory) (s : Slice) (x : Task)
    (h : s.valid m) :
    read (append grow m s x).2 (append grow m s x).1 = read m s ++ [x] := by
  have hlen := read_length m s h
  unfold append
  by_cases hcap : s.len + 1 ≤ s.cap
  · rw [if_pos hcap]
    unfold Slice.valid at h
    unfold read write
    unfold read at hlen
    cases ha : s.array with
    | none =>
      simp only [ha] at h
      omega
    | some a =>
      simp only [ha] at h hlen ⊢
      obtain ⟨hle, arr, harr, harrlen⟩ := h
      have halt : a < m.length := (List.getElem?_eq_some_iff.mp harr).1
      have hlt : s.len < arr.length := by omega
      have htake : List.take s.len (arr.set s.len x) = List.take s.len arr := by
        rw [List.set_take, List.set_eq_of_length_le]
        simp
      simp [List.getD, harr, halt, List.take_succ, hlt, htake]
  · rw [if_neg hcap]
    generalize read m s = l at hlen
    simp only [read, List.getD_eq_getElem?_getD]
    rw [List.getElem?_append_right (Nat.le_refl _)]
    simp only [Nat.sub_self, List.getElem?_cons_zero, Option.getD_some]
    rw [List.take_left' (by simp [hlen])]

theorem StartTask_view (grow : Nat → Nat → Nat) (r : Progress) (k d s : String) (m : Memory)
    (h : r.Tasks.valid m) :
    view (r.StartTask grow k d s m).2 (r.StartTask grow k d s m).1.1 =
        ((view m r).StartTask k d s).1 ∧
      (r.StartTask grow k d s m).1.2 = ((view m r).StartTask k d s).2 := by
  refine ⟨?_, rfl⟩
  simp only [Progress.StartTask, view, progress.Progress.StartTask, read_append grow m r.Tasks _ h]

theorem UpdateTask_scan_view (r : Progress) (k s : String) (m : Memory)
    (h : r.Tasks.valid m) (is : List Nat) :
    view (Progress.UpdateTask.scan r k s m is).2 (Progress.UpdateTask.scan r k s m is).1.1 =
        (progress.Progress.UpdateTask.scan (view m r) k s is).1 ∧
      (Progress.UpdateTask.scan r k s m is).1.2 =
        (progress.Progress.UpdateTask.scan (view m r) k s is).2 := by
  induction is with
  | nil => exact ⟨rfl, rfl⟩
  | cons i rest ih =>
    unfold Progress.UpdateTask.scan progress.Progress.UpdateTask.scan
    have hv : (view m r).Tasks = read m r.Tasks := rfl
    rw [hv]
    cases hi : (read m r.Tasks)[i]? with
    | none => exact ih
    | some t =>
      simp only
      by_cases hk : t.Key = k
      · simp only [hk, if_true]
        constructor
        · simp only [view, read_write m r.Tasks i _ h]
        · first | rfl | trivial
      · simp only [hk, if_false]
        exact ih

theorem UpdateTask_view (r : Progress) (k s : String) (m : Memory) (h : r.Tasks.valid m) :
    view (r.UpdateTask k s m).2 (r.UpdateTask k s m).1.1 = ((view m r).UpdateTask k s).1 ∧
      (r.UpdateTask k s m).1.2 = ((view m r).UpdateTask k s).2 := by
  have hlen : (view m r).Tasks.length = r.Tasks.len := read_length m r.Tasks h
  unfold Progress.UpdateTask progress.Progress.UpdateTask
  rw [hlen]
  exact UpdateTask_scan_view r k s m h _


theorem valid_write (m : Memory) (s s' : Slice) (i : Nat) (t : Task) (h : s'.valid m) :
    s'.valid (write m s i t) := by
  unfold Slice.valid at h ⊢
  cases ha' : s'.array with
  | none => simpa [ha'] using h
  | some a' =>
    simp only [ha'] at h ⊢
    obtain ⟨hle, arr, harr, hlen⟩ := h
    refine ⟨hle, ?_⟩
    unfold write
    cases ha : s.array with
    | none => exact ⟨arr, harr, hlen⟩
    | some a =>
      simp only
      by_cases haa : a = a'
      · subst haa
        have halt : a < m.length := (List.getElem?_eq_some_iff.mp harr).1
        refine ⟨arr.set i t, ?_, by simp [hlen]⟩
        simp [List.getD_eq_getElem?_getD, harr, halt]
      · exact ⟨arr, by simp [List.getElem?_set, haa, harr], hlen⟩

theorem valid_append_other (grow : Nat → Nat → Nat) (m : Memory) (s s' : Slice) (x : Task)
    (h : s'.valid m) : s'.valid (append grow m s x).2 := by
  unfold append
  split
  · exact valid_write m s s' _ x h
  · unfold Slice.valid at h ⊢
    cases ha' : s'.array with
    | none => simpa [ha'] using h
    | some a' =>
      simp only [ha'] at h ⊢
      obtain ⟨hle, arr, harr, hlen⟩ := h
      have halt : a' < m.length := (List.getElem?_eq_some_iff.mp harr).1
      exact ⟨hle, arr, by simp [List.getElem?_append_left halt, harr], hlen⟩

theorem valid_append (grow : Nat → Nat → Nat) (m : Memory) (s : Slice) (x : Task)
    (hgrow : ∀ oldCap newLen : Nat, newLen ≤ grow oldCap newLen) (h : s.valid m) :
    (append grow m s x).1.valid (append grow m s x).2 := by
  have hlen := read_length m s h
  unfold append
  by_cases hcap : s.len + 1 ≤ s.cap
  · simp only [if_pos hcap]
    have hw := valid_write m s s s.len x h
    unfold Slice.valid at hw ⊢
    cases ha : s.array with
    | none =>
      unfold Slice.valid at h
      simp only [ha] at h
      omega
    | some a =>
      simp only [ha] at hw ⊢
      exact ⟨hcap, hw.2⟩
  · simp only [if_neg hcap]
    unfold Slice.valid
    have hg := hgrow s.cap (s.len + 1)
    refine ⟨hg, _, List.getElem?_concat_length _ _, ?_⟩
    simp [hlen]
    omega

theorem growslice_sufficient (oldCap newLen : Nat) : newLen ≤ growslice oldCap newLen := by
  unfold growslice
  split
  · exact Nat.le_refl _
  · split
    · omega
    · exact Nat.le_max_left _ _

/-- C14, evaluated where the code departs from it.  A caller holds the report `r` of `held`
(one task `a`, status `pending`).  After `r.UpdateTask "a" "done"` the returned report shows
`done`, and so does `r` itself: the status was written into the backing array that `r` shares
with the receiver copy.  Likewise, of two reports derived by `StartTask` from the same report
with spare capacity, the first one shows `d1` as its last task before the second call and `d2`
after it, while the report they were derived from is unchanged. -/
theorem calls_write_shared_array :
    (view held.2 held.1.1).Tasks = [⟨"a", "A", "pending"⟩] ∧
    updated.1.2 = none ∧
    (view updated.2 updated.1.1).Tasks = [⟨"a", "A", "done"⟩] ∧
    (view updated.2 held.1.1).Tasks = [⟨"a", "A", "done"⟩] ∧
    view updated.2 held.1.1 ≠ view held.2 held.1.1 ∧
    (three.1.1.Tasks.len = 3 ∧ three.1.1.Tasks.cap = 4) ∧
    (view firstChild.2 firstChild.1.1).Tasks.map Task.Key = ["a", "b", "c", "d1"] ∧
    (view secondChild.2 secondChild.1.1).Tasks.map Task.Key = ["a", "b", "c", "d2"] ∧
    (view secondChild.2 firstChild.1.1).Tasks.map Task.Key = ["a", "b", "c", "d2"] ∧
    view secondChild.2 three.1.1 = view three.2 three.1.1 := by
  decide

end mem

end progress
